import Mathlib

/-!
Verification model for watchman's `InMemoryView` / `ViewDatabase`
(src/watchman/InMemoryView.h).

The repository ships the header only: it declares the data structures
(`ViewDatabase` with its tree of tracked files, the intrusive recency list
headed by `latestFile_`, the `rootInode_` identity, `InMemoryView` with its
`mostRecentTick_`, age-out bookkeeping and pending-change pipeline) together
with documentation comments, but the member-function bodies live outside the
provided sources.  Following the spec (sections 3, 4.1, 4.2, 4.4, 4.5), the
operations are therefore modelled here from the spec's words, with paths as
lists of name components.  Files are stored in an association list keyed by
full path (the ownership index, i.e. the per-directory child mappings
flattened), and the recency list is a separate list of paths (the non-owning
intrusive link chain), exactly mirroring the two-index structure of the
header.
-/

/-- Models `w_clock_t`: a tick count plus a wall-clock timestamp, as used to
stamp `otime`/`ctime` of tracked files. -/
structure WClock where
  ticks : Nat
  timestamp : Nat
  deriving Repr, DecidableEq

/-- Models the per-file payload of `watchman_file`: existence flag, last
observed change clock (`otime`) and creation clock (`ctime`). -/
structure FileRec where
  fileExists : Bool
  otime : WClock
  ctime : WClock
  deriving Repr, DecidableEq

/-- Models `ViewDatabase`: the flattened tree of tracked files (association
list from full path to record, i.e. the union of all per-directory child
mappings), the set of directory nodes, the recency list of file paths with
the most recently changed file first (`latestFile_` is its head), and the
last known root inode identity (`rootInode_`). -/
structure ViewDatabase where
  rootInode : Nat
  dirs : List (List String)
  files : List (List String × FileRec)
  recency : List (List String)
  deriving Repr, DecidableEq

/-- Lookup of the first association-list entry for a path (the tree's child
mapping lookup, flattened). -/
def findRec : List (List String × FileRec) → List String → Option FileRec
  | [], _ => none
  | e :: es, p => if e.1 = p then some e.2 else findRec es p

/-- Applies `f` to the record of the entry keyed `p`, leaving other entries
unchanged (in-place update of a tracked file's payload). -/
def updEntry (p : List String) (f : FileRec → FileRec) (e : List String × FileRec) :
    List String × FileRec :=
  if e.1 = p then (e.1, f e.2) else e

/-- Keys of the ownership index: the set of tracked (reachable) file paths. -/
def keysOf (v : ViewDatabase) : List (List String) :=
  v.files.map Prod.fst

/-- Tick component of a tracked file's otime, defaulting to 0 for untracked
paths. -/
def tickOf (v : ViewDatabase) (p : List String) : Nat :=
  match findRec v.files p with
  | some r => r.otime.ticks
  | none => 0

/-- Modelled from the spec: `ViewDatabase::getOrCreateChildFile` — "returns
the existing child or allocates a new TrackedFile stamped with ctime,
inserted at the recency-list head and into dir's child mapping".  The dir and
name arguments are fused into the full path `p`; a fresh file starts
not-existing until the pipeline's stat confirms it. -/
def ViewDatabase.getOrCreateChildFile (v : ViewDatabase) (p : List String) (ct : WClock) :
    ViewDatabase :=
  if (findRec v.files p).isSome then v
  else { v with
         files := (p, ⟨false, ct, ct⟩) :: v.files,
         recency := p :: v.recency }

/-- Modelled from the spec: `ViewDatabase::markFileChanged` — "updates otime
and splices the file to the recency-list head"; a path not (yet) tracked is
left untouched, since the real operation takes an existing `watchman_file*`. -/
def ViewDatabase.markFileChanged (v : ViewDatabase) (p : List String) (ot : WClock) :
    ViewDatabase :=
  if (findRec v.files p).isSome then
    { v with
      files := v.files.map (updEntry p (fun r => { r with otime := ot })),
      recency := p :: v.recency.erase p }
  else v

/-- Modelled from the spec: the existence-flag update done by `statPath` when
a stat confirms or refutes a file (deletion "only tombstones files as not
existing"). -/
def ViewDatabase.setFileExists (v : ViewDatabase) (p : List String) (b : Bool) :
    ViewDatabase :=
  { v with files := v.files.map (updEntry p (fun r => { r with fileExists := b })) }

/-- Modelled from the spec: tombstoning one tracked file — mark it
not-existing with the given otime and bubble it to the recency head (the
per-file step of `markDirDeleted` and of a not-found stat). -/
def ViewDatabase.markFileDeleted (v : ViewDatabase) (p : List String) (ot : WClock) :
    ViewDatabase :=
  (v.setFileExists p false).markFileChanged p ot

/-- Tests whether `d` is a leading segment of `q` (so the node at `q` lives
in the subtree rooted at directory `d`). -/
def isUnder : List String → List String → Bool
  | [], _ => true
  | _ :: _, [] => false
  | a :: as, b :: bs => a == b && isUnder as bs

/-- Paths tombstoned by `markDirDeleted d`: direct children of `d`
(non-recursive), or everything in `d`'s subtree when recursive. -/
def inScope (d : List String) (recursive : Bool) (p : List String) : Bool :=
  if recursive then isUnder d p.dropLast else decide (p.dropLast = d)

/-- Modelled from the spec: `ViewDatabase::markDirDeleted` — "tombstones
every direct child with otime; if recursive, first descends into child
directories and tombstones their contents too.  The directory node itself is
never removed." -/
def ViewDatabase.markDirDeleted (v : ViewDatabase) (d : List String) (ot : WClock)
    (recursive : Bool) : ViewDatabase :=
  ((v.files.filter (fun e => inScope d recursive e.1)).map Prod.fst).foldl
    (fun acc p => acc.markFileDeleted p ot) v

/-- Survival test of the age-out sweep: an entry is kept when it still
exists, or when its otime timestamp is at least `now - minAge` (it is
younger than the minimum age). -/
def keepRec (now minAge : Nat) (r : FileRec) : Bool :=
  r.fileExists || decide (now - minAge ≤ r.otime.timestamp)

/-- Modelled from the spec: the view-level part of the age-out sweep —
"evicting tombstoned entries older than a minimum age from both indexes". -/
def ViewDatabase.ageOutFiles (v : ViewDatabase) (now minAge : Nat) : ViewDatabase :=
  { v with
    files := v.files.filter (fun e => keepRec now minAge e.2),
    recency := v.recency.filter
      (fun p =>
        match findRec v.files p with
        | some r => keepRec now minAge r
        | none => false) }

/-- Trivial inline accessor from the header: `ViewDatabase::getRootInode`. -/
def ViewDatabase.getRootInode (v : ViewDatabase) : Nat :=
  v.rootInode

/-- Trivial inline accessor from the header: `ViewDatabase::setRootInode`. -/
def ViewDatabase.setRootInode (v : ViewDatabase) (ino : Nat) : ViewDatabase :=
  { v with rootInode := ino }

/-- Models the `InMemoryView` state the claims touch: the view database, the
atomic `mostRecentTick_`, and the age-out bookkeeping `lastAgeOutTick_` /
`lastAgeOutTimestamp_`. -/
structure InMemoryView where
  view : ViewDatabase
  mostRecentTick : Nat
  lastAgeOutTick : Nat
  lastAgeOutTimestamp : Nat
  deriving Repr, DecidableEq

/-- Modelled from the spec: `InMemoryView::ageOut` — sweep the view's
recency list evicting old tombstoned entries and record "the age-out
tick/timestamp". -/
def InMemoryView.ageOut (s : InMemoryView) (now minAge : Nat) : InMemoryView :=
  { view := s.view.ageOutFiles now minAge,
    mostRecentTick := s.mostRecentTick,
    lastAgeOutTick := s.mostRecentTick,
    lastAgeOutTimestamp := now }

/-- Modelled from the spec: `InMemoryView::timeGenerator` — "scans the
recency list from the head while otime ≥ the requested clock; stops at the
first older entry". -/
def InMemoryView.timeGenerator (s : InMemoryView) (T : Nat) : List (List String) :=
  s.view.recency.takeWhile (fun p => decide (T ≤ tickOf s.view p))

/-- View-level invariant of the spec: every reachable TrackedFile appears in
the recency list exactly once (the two indexes track the same set of paths,
each without duplicates), and the recency list is ordered by non-increasing
otime from head to tail. -/
def goodView (v : ViewDatabase) : Prop :=
  v.recency.Nodup ∧
  (keysOf v).Nodup ∧
  (∀ p ∈ keysOf v, p ∈ v.recency) ∧
  (∀ p ∈ v.recency, p ∈ keysOf v) ∧
  v.recency.Pairwise (fun a b => tickOf v b ≤ tickOf v a)

instance (v : ViewDatabase) : Decidable (goodView v) := by
  unfold goodView; infer_instance

/-- Upper bound hypothesis: every tracked file's otime tick is at most `t`
(true of the current tick in every reachable state, since mutations stamp
with the tick current at mutation time and the tick only grows). -/
def tickUBV (v : ViewDatabase) (t : Nat) : Prop :=
  ∀ p ∈ v.recency, tickOf v p ≤ t

instance (v : ViewDatabase) (t : Nat) : Decidable (tickUBV v t) := by
  unfold tickUBV; infer_instance

/-- Existence of the file at `p` as recorded by the view (`false` for
untracked paths). -/
def existsInView (v : ViewDatabase) (p : List String) : Bool :=
  match findRec v.files p with
  | some r => r.fileExists
  | none => false

/-- Models a `PendingChange` entry as consumed by the pipeline: a path plus
the flags the claims mention (recursive / notify-sourced / desynced,
mirroring `W_PENDING_RECURSIVE`, `W_PENDING_VIA_NOTIFY`,
`W_PENDING_IS_DESYNCED`). -/
structure PendingChange where
  path : List String
  isRecursive : Bool
  viaNotify : Bool
  desynced : Bool
  deriving Repr, DecidableEq

/-- Models the `IsDesynced` result of `InMemoryView::processAllPending`. -/
inductive IsDesynced where
  | Yes
  | No
  deriving Repr, DecidableEq

/-- Modelled from the spec: `InMemoryView::processPath`/`statPath` for one
pending path — "performs an lstat-equivalent ... On success, it
creates/updates the TrackedFile ... On not-found, it tombstones".  The
filesystem is abstracted as the set `fs` of paths whose stat succeeds; `t`
is the tick stamped on the mutation. -/
def processPath (fs : List (List String)) (v : ViewDatabase) (p : List String) (t : Nat) :
    ViewDatabase :=
  if p ∈ fs then
    ((v.getOrCreateChildFile p ⟨t, t⟩).setFileExists p true).markFileChanged p ⟨t, t⟩
  else if (findRec v.files p).isSome then
    v.markFileDeleted p ⟨t, t⟩
  else
    v

/-- Modelled from the spec: `InMemoryView::processAllPending` — "Consume
entries from pending and apply them to the InMemoryView", advancing the tick
per applied mutation, and report `IsDesynced::Yes` exactly when some drained
entry carries the desynced flag. -/
def processAllPending (fs : List (List String)) (batch : List PendingChange)
    (v : ViewDatabase) (t : Nat) : ViewDatabase × Nat × IsDesynced :=
  let final := batch.foldl (fun st pc => (processPath fs st.1 pc.path st.2, st.2 + 1)) (v, t)
  (final.1, final.2, if batch.any (fun pc => pc.desynced) then IsDesynced.Yes else IsDesynced.No)

/-- Modelled from the spec: the caller-side reaction to a desynced drain —
"the caller will abort all pending cookies after processAllPending returns";
on `Yes` every in-flight synchronization-cookie wait is aborted (none keeps
waiting for its timeout), otherwise the waits are untouched. -/
def cookiesAfterDrain (cookies : List Nat) (d : IsDesynced) : List Nat :=
  match d with
  | IsDesynced.Yes => []
  | IsDesynced.No => cookies

/-- Reference filesystem operations for the order-independence property:
create / modify / delete of a path. -/
inductive FsOp where
  | create (p : List String)
  | modify (p : List String)
  | delete (p : List String)
  deriving Repr, DecidableEq

/-- Path an operation touches. -/
def FsOp.path : FsOp → List String
  | FsOp.create p => p
  | FsOp.modify p => p
  | FsOp.delete p => p

/-- Direct application of one operation to a set of existing paths (the
reference model of the spec's order-independence property). -/
def applyFsOp (fs : List (List String)) : FsOp → List (List String)
  | FsOp.create p => if p ∈ fs then fs else p :: fs
  | FsOp.modify p => if p ∈ fs then fs else p :: fs
  | FsOp.delete p => fs.filter (fun q => decide (q ≠ p))

/-- Reference model: the set of paths existing after applying the operations
directly, in order, to an empty filesystem. -/
def refModel (ops : List FsOp) : List (List String) :=
  ops.foldl applyFsOp []

/-- Pending change fed to the pipeline for an operation: the path with plain
notify-sourced flags (the pipeline re-stats the path; the operation kind is
only a hint it does not consume). -/
def pendingOf (op : FsOp) : PendingChange :=
  { path := op.path, isRecursive := false, viaNotify := true, desynced := false }

/-- Empty view: just the root directory node, no files. -/
def emptyView : ViewDatabase :=
  { rootInode := 0, dirs := [[]], files := [], recency := [] }

/-- Modelled from the spec: the tick counter is "a 32-bit counter,
monotonically increasing, advanced once per mutator pass" — one advance of
the 32-bit `mostRecentTick_`. -/
def nextTick (t : Nat) : Nat :=
  (t + 1) % 4294967296

/-- Tick value observed after `n` mutator passes starting from tick `t`. -/
def tickAfter : Nat → Nat → Nat
  | 0, t => t
  | n + 1, t => nextTick (tickAfter n t)

/-- Repair action chosen after comparing root identities. -/
inductive RepairAction where
  | fullRecrawl
  | incremental
  deriving Repr, DecidableEq

/-- Modelled from the spec: the root-identity check — a mismatch of the last
known root-device identity ("the watched root was replaced") "triggers a
full recrawl, not incremental repair". -/
def checkRootIdentity (v : ViewDatabase) (observed : Nat) : RepairAction :=
  if observed = v.getRootInode then RepairAction.incremental else RepairAction.fullRecrawl

/-! Basic lemmas about the association-list lookup. -/

theorem findRec_isSome_iff (l : List (List String × FileRec)) (q : List String) :
    (findRec l q).isSome = true ↔ q ∈ l.map Prod.fst := by
  induction l with
  | nil => simp [findRec]
  | cons e es ih =>
    simp only [findRec, List.map_cons, List.mem_cons]
    by_cases h : e.1 = q
    · rw [if_pos h]
      exact ⟨fun _ => Or.inl h.symm, fun _ => rfl⟩
    · rw [if_neg h, ih]
      have hne : ¬ q = e.1 := fun hh => h hh.symm
      exact ⟨Or.inr, fun hc => hc.resolve_left hne⟩

theorem findRec_eq_none_of_not_mem {l : List (List String × FileRec)} {q : List String}
    (h : q ∉ l.map Prod.fst) : findRec l q = none := by
  rcases hf : findRec l q with _ | r
  · rfl
  · exact absurd ((findRec_isSome_iff l q).1 (by simp [hf])) h

theorem findRec_map_upd (l : List (List String × FileRec)) (p : List String)
    (f : FileRec → FileRec) (q : List String) :
    findRec (l.map (updEntry p f)) q =
      if q = p then (findRec l q).map f else findRec l q := by
  induction l with
  | nil => simp [findRec]
  | cons e es ih =>
    by_cases hq : e.1 = q
    · by_cases hp : q = p
      · subst hp; simp [findRec, updEntry, hq]
      · have : e.1 ≠ p := by rw [hq]; exact hp
        simp [findRec, updEntry, this, hq, hp]
    · by_cases hep : e.1 = p
      · have hqp : q ≠ p := by intro h; exact hq (by rw [hep, h])
        have hpq : p ≠ q := Ne.symm hqp
        simp [findRec, updEntry, hep, hq, hqp, hpq, ih]
      · simp [findRec, updEntry, hep, hq, ih]

theorem keys_map_upd (l : List (List String × FileRec)) (p : List String)
    (f : FileRec → FileRec) :
    (l.map (updEntry p f)).map Prod.fst = l.map Prod.fst := by
  induction l with
  | nil => rfl
  | cons e es ih =>
    by_cases h : e.1 = p <;> simp [updEntry, h, ih]

theorem findRec_filter (l : List (List String × FileRec))
    (g : List String × FileRec → Bool) (q : List String)
    (hnd : (l.map Prod.fst).Nodup) :
    findRec (l.filter g) q =
      match findRec l q with
      | some r => if g (q, r) then some r else none
      | none => none := by
  induction l with
  | nil => simp [findRec]
  | cons e es ih =>
    have hnd' : (es.map Prod.fst).Nodup := (List.nodup_cons.1 hnd).2
    have hne : e.1 ∉ es.map Prod.fst := (List.nodup_cons.1 hnd).1
    by_cases hq : e.1 = q
    · have hnone : findRec es q = none := findRec_eq_none_of_not_mem (hq ▸ hne)
      by_cases hg : g e
      · simp [findRec, List.filter_cons, hg, hq]
        have : g (q, e.2) = true := by
          have : (q, e.2) = e := by rw [← hq]

          rw [this]; exact hg
        simp [this]
      · have hgq : g (q, e.2) = false := by
          have he : (q, e.2) = e := by rw [← hq]
          rw [he]; simpa using hg
        simp [findRec, List.filter_cons, hg, hq, ih hnd', hnone, hgq]
    · by_cases hg : g e
      · simp [findRec, List.filter_cons, hg, hq, ih hnd']
      · simp [findRec, List.filter_cons, hg, hq, ih hnd']

/-! Field-level lemmas for the operations. -/

theorem markFileChanged_of_not {v : ViewDatabase} {p : List String} {ot : WClock}
    (h : ¬ (findRec v.files p).isSome = true) : v.markFileChanged p ot = v := by
  unfold ViewDatabase.markFileChanged
  simp [h]

theorem recency_markFileChanged_of_mem {v : ViewDatabase} {p : List String} {ot : WClock}
    (h : (findRec v.files p).isSome = true) :
    (v.markFileChanged p ot).recency = p :: v.recency.erase p := by
  unfold ViewDatabase.markFileChanged
  simp [h]

theorem findRec_markFileChanged (v : ViewDatabase) (p : List String) (ot : WClock)
    (q : List String) :
    findRec (v.markFileChanged p ot).files q =
      if q = p then (findRec v.files q).map (fun r => { r with otime := ot })
      else findRec v.files q := by
  unfold ViewDatabase.markFileChanged
  by_cases h : (findRec v.files p).isSome = true
  · simp only [h, if_true]
    exact findRec_map_upd v.files p _ q
  · simp only [h, if_false]
    by_cases hq : q = p
    · subst hq
      rcases hf : findRec v.files q with _ | r
      · simp [hf]
      · exact absurd (by simp [hf]) h
    · simp [hq]

theorem keysOf_markFileChanged (v : ViewDatabase) (p : List String) (ot : WClock) :
    keysOf (v.markFileChanged p ot) = keysOf v := by
  unfold ViewDatabase.markFileChanged keysOf
  by_cases h : (findRec v.files p).isSome = true
  · simp only [h, if_true]
    exact keys_map_upd v.files p _
  · simp [h]

theorem dirs_markFileChanged (v : ViewDatabase) (p : List String) (ot : WClock) :
    (v.markFileChanged p ot).dirs = v.dirs := by
  unfold ViewDatabase.markFileChanged
  by_cases h : (findRec v.files p).isSome = true <;> simp [h]

theorem findRec_setFileExists (v : ViewDatabase) (p : List String) (b : Bool)
    (q : List String) :
    findRec (v.setFileExists p b).files q =
      if q = p then (findRec v.files q).map (fun r => { r with fileExists := b })
      else findRec v.files q :=
  findRec_map_upd v.files p _ q

theorem keysOf_setFileExists (v : ViewDatabase) (p : List String) (b : Bool) :
    keysOf (v.setFileExists p b) = keysOf v :=
  keys_map_upd v.files p _

theorem recency_setFileExists (v : ViewDatabase) (p : List String) (b : Bool) :
    (v.setFileExists p b).recency = v.recency := rfl

theorem dirs_setFileExists (v : ViewDatabase) (p : List String) (b : Bool) :
    (v.setFileExists p b).dirs = v.dirs := rfl

theorem tickOf_setFileExists (v : ViewDatabase) (p : List String) (b : Bool)
    (q : List String) : tickOf (v.setFileExists p b) q = tickOf v q := by
  unfold tickOf
  rw [findRec_setFileExists]
  by_cases hq : q = p
  · subst hq
    rcases hf : findRec v.files q with _ | r <;> simp [hf]
  · simp [hq]

theorem isSome_setFileExists (v : ViewDatabase) (p : List String) (b : Bool)
    (q : List String) :
    (findRec (v.setFileExists p b).files q).isSome = (findRec v.files q).isSome := by
  rw [findRec_setFileExists]
  by_cases hq : q = p
  · subst hq
    rcases hf : findRec v.files q with _ | r <;> simp [hf]
  · simp [hq]

theorem tickOf_markFileChanged_ne (v : ViewDatabase) (p : List String) (ot : WClock)
    {q : List String} (hq : q ≠ p) : tickOf (v.markFileChanged p ot) q = tickOf v q := by
  unfold tickOf
  rw [findRec_markFileChanged, if_neg hq]

theorem tickOf_markFileChanged_self {v : ViewDatabase} {p : List String} (ot : WClock)
    (h : (findRec v.files p).isSome = true) :
    tickOf (v.markFileChanged p ot) p = ot.ticks := by
  unfold tickOf
  rw [findRec_markFileChanged, if_pos rfl]
  rcases hf : findRec v.files p with _ | r
  · rw [hf] at h; simp at h
  · simp

theorem findRec_markFileDeleted (v : ViewDatabase) (p : List String) (ot : WClock)
    (q : List String) :
    findRec (v.markFileDeleted p ot).files q =
      if q = p then
        (findRec v.files q).map (fun r => { r with fileExists := false, otime := ot })
      else findRec v.files q := by
  unfold ViewDatabase.markFileDeleted
  rw [findRec_markFileChanged, findRec_setFileExists]
  by_cases hq : q = p
  · subst hq
    rcases hf : findRec v.files q with _ | r <;> simp [hf]
  · simp [hq]

theorem recency_markFileDeleted_of_mem {v : ViewDatabase} {p : List String} {ot : WClock}
    (h : (findRec v.files p).isSome = true) :
    (v.markFileDeleted p ot).recency = p :: v.recency.erase p := by
  unfold ViewDatabase.markFileDeleted
  rw [recency_markFileChanged_of_mem, recency_setFileExists]
  rw [isSome_setFileExists]
  exact h

theorem keysOf_markFileDeleted (v : ViewDatabase) (p : List String) (ot : WClock) :
    keysOf (v.markFileDeleted p ot) = keysOf v := by
  unfold ViewDatabase.markFileDeleted
  rw [keysOf_markFileChanged, keysOf_setFileExists]

theorem dirs_markFileDeleted (v : ViewDatabase) (p : List String) (ot : WClock) :
    (v.markFileDeleted p ot).dirs = v.dirs := by
  unfold ViewDatabase.markFileDeleted
  rw [dirs_markFileChanged, dirs_setFileExists]

theorem getOrCreateChildFile_of_mem {v : ViewDatabase} {p : List String} {ct : WClock}
    (h : (findRec v.files p).isSome = true) : v.getOrCreateChildFile p ct = v := by
  unfold ViewDatabase.getOrCreateChildFile
  simp [h]

theorem findRec_getOrCreateChildFile (v : ViewDatabase) (p : List String) (ct : WClock)
    (q : List String) :
    findRec (v.getOrCreateChildFile p ct).files q =
      if q = p then some ((findRec v.files p).getD ⟨false, ct, ct⟩)
      else findRec v.files q := by
  unfold ViewDatabase.getOrCreateChildFile
  by_cases h : (findRec v.files p).isSome = true
  · rcases hf : findRec v.files p with _ | r
    · rw [hf] at h; simp at h
    · simp [h]
      by_cases hq : q = p
      · subst hq; simp [hf]
      · simp [hq]
  · rcases hf : findRec v.files p with _ | r
    · simp [h]
      by_cases hq : q = p
      · subst hq; simp [findRec, hf]
      · have : ¬ p = q := fun hh => hq hh.symm
        simp [findRec, hq, this]
    · rw [hf] at h; simp at h

theorem keysOf_getOrCreateChildFile_of_not {v : ViewDatabase} {p : List String}
    {ct : WClock} (h : ¬ (findRec v.files p).isSome = true) :
    keysOf (v.getOrCreateChildFile p ct) = p :: keysOf v := by
  unfold ViewDatabase.getOrCreateChildFile keysOf
  simp [h]

theorem recency_getOrCreateChildFile_of_not {v : ViewDatabase} {p : List String}
    {ct : WClock} (h : ¬ (findRec v.files p).isSome = true) :
    (v.getOrCreateChildFile p ct).recency = p :: v.recency := by
  unfold ViewDatabase.getOrCreateChildFile
  simp [h]

theorem tickOf_getOrCreateChildFile_ne (v : ViewDatabase) (p : List String) (ct : WClock)
    {q : List String} (hq : q ≠ p) : tickOf (v.getOrCreateChildFile p ct) q = tickOf v q := by
  unfold tickOf
  rw [findRec_getOrCreateChildFile, if_neg hq]

theorem tickOf_getOrCreateChildFile_self_of_not {v : ViewDatabase} {p : List String}
    {ct : WClock} (h : ¬ (findRec v.files p).isSome = true) :
    tickOf (v.getOrCreateChildFile p ct) p = ct.ticks := by
  unfold tickOf
  rw [findRec_getOrCreateChildFile, if_pos rfl]
  rcases hf : findRec v.files p with _ | r
  · simp [hf]
  · rw [hf] at h; simp at h

theorem mem_keysOf_iff (v : ViewDatabase) (q : List String) :
    q ∈ keysOf v ↔ (findRec v.files q).isSome = true :=
  (findRec_isSome_iff v.files q).symm

/-! Preservation of the recency-list invariant by every mutating
operation. -/

theorem tickUBV_setFileExists {v : ViewDatabase} {t : Nat} (p : List String) (b : Bool)
    (hub : tickUBV v t) : tickUBV (v.setFileExists p b) t := by
  intro q hq
  rw [recency_setFileExists] at hq
  rw [tickOf_setFileExists]
  exact hub q hq

theorem goodView_setFileExists {v : ViewDatabase} (p : List String) (b : Bool)
    (hg : goodView v) : goodView (v.setFileExists p b) := by
  obtain ⟨hnd, hknd, hkr, hrk, hsort⟩ := hg
  refine ⟨?_, ?_, ?_, ?_, ?_⟩
  · rw [recency_setFileExists]; exact hnd
  · rw [keysOf_setFileExists]; exact hknd
  · intro q hq
    rw [keysOf_setFileExists] at hq
    rw [recency_setFileExists]
    exact hkr q hq
  · intro q hq
    rw [recency_setFileExists] at hq
    rw [keysOf_setFileExists]
    exact hrk q hq
  · rw [recency_setFileExists]
    refine List.Pairwise.imp_of_mem ?_ hsort
    intro a b _ _ hab
    rw [tickOf_setFileExists, tickOf_setFileExists]
    exact hab

theorem tickUBV_markFileChanged {v : ViewDatabase} {t : Nat} {p : List String} {ot : WClock}
    (hub : tickUBV v t) (hot : ot.ticks ≤ t) : tickUBV (v.markFileChanged p ot) t := by
  by_cases h : (findRec v.files p).isSome = true
  · intro q hq
    rw [recency_markFileChanged_of_mem h] at hq
    by_cases hqp : q = p
    · subst hqp
      rw [tickOf_markFileChanged_self ot h]
      exact hot
    · rw [tickOf_markFileChanged_ne v p ot hqp]
      rcases List.mem_cons.1 hq with hq | hq
      · exact absurd hq hqp
      · exact hub q (List.mem_of_mem_erase hq)
  · rw [markFileChanged_of_not h]
    exact hub

theorem goodView_markFileChanged {v : ViewDatabase} {p : List String} {ot : WClock}
    (hg : goodView v) (hub : tickUBV v ot.ticks) : goodView (v.markFileChanged p ot) := by
  by_cases h : (findRec v.files p).isSome = true
  · obtain ⟨hnd, hknd, hkr, hrk, hsort⟩ := hg
    have hrec : (v.markFileChanged p ot).recency = p :: v.recency.erase p :=
      recency_markFileChanged_of_mem h
    have hkeys := keysOf_markFileChanged v p ot
    refine ⟨?_, ?_, ?_, ?_, ?_⟩
    · rw [hrec]
      exact List.nodup_cons.2 ⟨fun hc => ((hnd.mem_erase_iff).1 hc).1 rfl, hnd.erase p⟩
    · rw [hkeys]; exact hknd
    · intro q hq
      rw [hkeys] at hq
      rw [hrec]
      by_cases hqp : q = p
      · exact hqp ▸ List.mem_cons_self _ _
      · exact List.mem_cons_of_mem _ ((hnd.mem_erase_iff).2 ⟨hqp, hkr q hq⟩)
    · intro q hq
      rw [hrec] at hq
      rw [hkeys]
      rcases List.mem_cons.1 hq with hq | hq
      · exact hq ▸ (mem_keysOf_iff v p).2 h
      · exact hrk q (List.mem_of_mem_erase hq)
    · rw [hrec]
      refine List.pairwise_cons.2 ⟨?_, ?_⟩
      · intro b hb
        have hbp : b ≠ p := ((hnd.mem_erase_iff).1 hb).1
        rw [tickOf_markFileChanged_ne v p ot hbp, tickOf_markFileChanged_self ot h]
        exact hub b (List.mem_of_mem_erase hb)
      · have hsub : List.Pairwise (fun a b => tickOf v b ≤ tickOf v a) (v.recency.erase p) :=
          hsort.sublist (List.erase_sublist p v.recency)
        refine List.Pairwise.imp_of_mem ?_ hsub
        intro a b ha hb hab
        have hap : a ≠ p := ((hnd.mem_erase_iff).1 ha).1
        have hbp : b ≠ p := ((hnd.mem_erase_iff).1 hb).1
        rw [tickOf_markFileChanged_ne v p ot hap, tickOf_markFileChanged_ne v p ot hbp]
        exact hab
  · rw [markFileChanged_of_not h]
    exact hg

theorem goodView_markFileDeleted {v : ViewDatabase} {p : List String} {ot : WClock}
    (hg : goodView v) (hub : tickUBV v ot.ticks) : goodView (v.markFileDeleted p ot) := by
  unfold ViewDatabase.markFileDeleted
  exact goodView_markFileChanged (goodView_setFileExists p false hg)
    (tickUBV_setFileExists p false hub)

theorem tickUBV_markFileDeleted {v : ViewDatabase} {t : Nat} {p : List String} {ot : WClock}
    (hub : tickUBV v t) (hot : ot.ticks ≤ t) : tickUBV (v.markFileDeleted p ot) t := by
  unfold ViewDatabase.markFileDeleted
  exact tickUBV_markFileChanged (tickUBV_setFileExists p false hub) hot

theorem goodView_getOrCreateChildFile {v : ViewDatabase} {p : List String} {ct : WClock}
    (hg : goodView v) (hub : tickUBV v ct.ticks) : goodView (v.getOrCreateChildFile p ct) := by
  by_cases h : (findRec v.files p).isSome = true
  · rw [getOrCreateChildFile_of_mem h]
    exact hg
  · obtain ⟨hnd, hknd, hkr, hrk, hsort⟩ := hg
    have hrec : (v.getOrCreateChildFile p ct).recency = p :: v.recency :=
      recency_getOrCreateChildFile_of_not h
    have hkeys : keysOf (v.getOrCreateChildFile p ct) = p :: keysOf v :=
      keysOf_getOrCreateChildFile_of_not h
    have hpk : p ∉ keysOf v := fun hm => h ((mem_keysOf_iff v p).1 hm)
    have hpr : p ∉ v.recency := fun hm => hpk (hrk p hm)
    refine ⟨?_, ?_, ?_, ?_, ?_⟩
    · rw [hrec]
      exact List.nodup_cons.2 ⟨hpr, hnd⟩
    · rw [hkeys]
      exact List.nodup_cons.2 ⟨hpk, hknd⟩
    · intro q hq
      rw [hkeys] at hq
      rw [hrec]
      rcases List.mem_cons.1 hq with hq | hq
      · exact hq ▸ List.mem_cons_self _ _
      · exact List.mem_cons_of_mem _ (hkr q hq)
    · intro q hq
      rw [hrec] at hq
      rw [hkeys]
      rcases List.mem_cons.1 hq with hq | hq
      · exact hq ▸ List.mem_cons_self _ _
      · exact List.mem_cons_of_mem _ (hrk q hq)
    · rw [hrec]
      refine List.pairwise_cons.2 ⟨?_, ?_⟩
      · intro b hb
        have hbp : b ≠ p := fun hh => hpr (hh ▸ hb)
        rw [tickOf_getOrCreateChildFile_ne v p ct hbp,
          tickOf_getOrCreateChildFile_self_of_not h]
        exact hub b hb
      · refine List.Pairwise.imp_of_mem ?_ hsort
        intro a b ha hb hab
        have hap : a ≠ p := fun hh => hpr (hh ▸ ha)
        have hbp : b ≠ p := fun hh => hpr (hh ▸ hb)
        rw [tickOf_getOrCreateChildFile_ne v p ct hap,
          tickOf_getOrCreateChildFile_ne v p ct hbp]
        exact hab

theorem goodView_tickUBV_foldl_del (l : List (List String)) (ot : WClock) :
    ∀ v : ViewDatabase, goodView v → tickUBV v ot.ticks →
      goodView (l.foldl (fun acc p => acc.markFileDeleted p ot) v) ∧
      tickUBV (l.foldl (fun acc p => acc.markFileDeleted p ot) v) ot.ticks := by
  induction l with
  | nil => exact fun v hg hub => ⟨hg, hub⟩
  | cons p rest ih =>
    intro v hg hub
    simp only [List.foldl_cons]
    exact ih _ (goodView_markFileDeleted hg hub) (tickUBV_markFileDeleted hub le_rfl)

theorem goodView_markDirDeleted {v : ViewDatabase} {d : List String} {ot : WClock}
    {recursive : Bool} (hg : goodView v) (hub : tickUBV v ot.ticks) :
    goodView (v.markDirDeleted d ot recursive) := by
  unfold ViewDatabase.markDirDeleted
  exact (goodView_tickUBV_foldl_del _ ot v hg hub).1

theorem findRec_ageOutFiles {v : ViewDatabase} (now minAge : Nat) (q : List String)
    (hknd : (keysOf v).Nodup) :
    findRec (v.ageOutFiles now minAge).files q =
      match findRec v.files q with
      | some r => if keepRec now minAge r then some r else none
      | none => none := by
  have h := findRec_filter v.files (fun e => keepRec now minAge e.2) q hknd
  exact h

theorem recency_ageOutFiles (v : ViewDatabase) (now minAge : Nat) :
    (v.ageOutFiles now minAge).recency =
      v.recency.filter
        (fun p =>
          match findRec v.files p with
          | some r => keepRec now minAge r
          | none => false) := rfl

theorem tickOf_ageOutFiles_of_mem {v : ViewDatabase} {now minAge : Nat}
    (hknd : (keysOf v).Nodup) {c : List String}
    (hc : c ∈ (v.ageOutFiles now minAge).recency) :
    tickOf (v.ageOutFiles now minAge) c = tickOf v c := by
  rw [recency_ageOutFiles] at hc
  obtain ⟨hcr, hc2⟩ := List.mem_filter.1 hc
  rcases hf : findRec v.files c with _ | r
  · rw [hf] at hc2; simp at hc2
  · have hk : keepRec now minAge r = true := by
      rw [hf] at hc2; simpa using hc2
    unfold tickOf
    rw [findRec_ageOutFiles now minAge c hknd, hf]
    simp [hk]

theorem goodView_ageOutFiles {v : ViewDatabase} (now minAge : Nat) (hg : goodView v) :
    goodView (v.ageOutFiles now minAge) := by
  obtain ⟨hnd, hknd, hkr, hrk, hsort⟩ := hg
  refine ⟨?_, ?_, ?_, ?_, ?_⟩
  · rw [recency_ageOutFiles]
    exact hnd.filter _
  · exact List.Nodup.sublist ((List.filter_sublist v.files).map Prod.fst) hknd
  · intro q hq
    have hs := (mem_keysOf_iff _ q).1 hq
    rw [findRec_ageOutFiles now minAge q hknd] at hs
    rcases hf : findRec v.files q with _ | r
    · rw [hf] at hs; simp at hs
    · rw [hf] at hs
      by_cases hk : keepRec now minAge r = true
      · rw [recency_ageOutFiles]
        refine List.mem_filter.2 ⟨hkr q ((mem_keysOf_iff v q).2 (by simp [hf])), ?_⟩
        simp only [hf]
        exact hk
      · simp [hk] at hs
  · intro q hq
    rw [recency_ageOutFiles] at hq
    obtain ⟨hqr, hq2⟩ := List.mem_filter.1 hq
    rcases hf : findRec v.files q with _ | r
    · rw [hf] at hq2; simp at hq2
    · have hk : keepRec now minAge r = true := by
        rw [hf] at hq2; simpa using hq2
      refine (mem_keysOf_iff _ q).2 ?_
      rw [findRec_ageOutFiles now minAge q hknd, hf]
      simp [hk]
  · have hsub : (v.ageOutFiles now minAge).recency.Sublist v.recency := by
      rw [recency_ageOutFiles]
      exact List.filter_sublist _
    refine List.Pairwise.imp_of_mem ?_ (hsort.sublist hsub)
    intro a b ha hb hab
    rw [tickOf_ageOutFiles_of_mem hknd ha, tickOf_ageOutFiles_of_mem hknd hb]
    exact hab

/-- Sample view with two tracked files in two directories, used by the
concrete witnesses below. -/
def vW : ViewDatabase :=
  { rootInode := 7,
    dirs := [[], ["a"]],
    files := [(["a", "x.txt"], ⟨true, ⟨3, 30⟩, ⟨1, 10⟩⟩),
              (["a", "y.txt"], ⟨false, ⟨2, 20⟩, ⟨1, 10⟩⟩)],
    recency := [["a", "x.txt"], ["a", "y.txt"]] }

/-- C1: in every reachable state of the view — a state satisfying the
recency-list invariant `goodView`, with every otime bounded by the tick the
next mutation is stamped with — each reachable TrackedFile appears in the
global recency list exactly once and the recency list is ordered by
non-increasing otime from head (`latestFile_`) to tail, and the invariant is
preserved by every mutating operation: `getOrCreateChildFile`,
`markFileChanged`, `markDirDeleted`, and the age-out sweep. -/
theorem C1_recency_invariant_preserved (v : ViewDatabase) (hg : goodView v) :
    (∀ p ct, tickUBV v ct.ticks → goodView (v.getOrCreateChildFile p ct)) ∧
    (∀ p ot, tickUBV v ot.ticks → goodView (v.markFileChanged p ot)) ∧
    (∀ d ot recursive, tickUBV v ot.ticks → goodView (v.markDirDeleted d ot recursive)) ∧
    (∀ now minAge, goodView (v.ageOutFiles now minAge)) :=
  ⟨fun _ _ hub => goodView_getOrCreateChildFile hg hub,
   fun _ _ hub => goodView_markFileChanged hg hub,
   fun _ _ _ hub => goodView_markDirDeleted hg hub,
   fun now minAge => goodView_ageOutFiles now minAge hg⟩

/-- Witness for C1 at the concrete view `vW`: its hypotheses hold and the
invariant survives a concrete `markFileChanged`. -/
theorem C1_recency_invariant_preserved_witness :
    goodView vW ∧ tickUBV vW 5 ∧ goodView (vW.markFileChanged ["a", "y.txt"] ⟨5, 50⟩) :=
  ⟨by decide, by decide,
   (C1_recency_invariant_preserved vW (by decide)).2.1 ["a", "y.txt"] ⟨5, 50⟩ (by decide)⟩

theorem mem_takeWhile_of_sorted {l : List (List String)} {f : List String → Nat} {T : Nat}
    (hs : l.Pairwise (fun a b => f b ≤ f a)) {x : List String} (hx : x ∈ l)
    (hT : T ≤ f x) : x ∈ l.takeWhile (fun y => decide (T ≤ f y)) := by
  induction l with
  | nil => cases hx
  | cons a rest ih =>
    obtain ⟨ha, hrest⟩ := List.pairwise_cons.1 hs
    rcases List.mem_cons.1 hx with hx | hx
    · subst hx
      rw [List.takeWhile_cons, if_pos (by simpa using hT)]
      exact List.mem_cons_self _ _
    · have hTa : T ≤ f a := le_trans hT (ha x hx)
      rw [List.takeWhile_cons, if_pos (by simpa using hTa)]
      exact List.mem_cons_of_mem _ (ih hrest hx)

/-- Concrete `InMemoryView` over `vW` used by the witnesses. -/
def sW : InMemoryView :=
  { view := vW, mostRecentTick := 3, lastAgeOutTick := 0, lastAgeOutTimestamp := 0 }

/-- C2: for every clock value `T`, the time generator returns exactly the
set of tracked entities whose otime is at least `T`, and returns the empty
set whenever `T` is greater than the current tick; it scans the recency
list from the head stopping at the first entry with otime below `T`
(by its definition as a `takeWhile` over the recency list). -/
theorem C2_timeGenerator_exact (s : InMemoryView) (T : Nat) (hg : goodView s.view)
    (hub : tickUBV s.view s.mostRecentTick) :
    (∀ p, p ∈ s.timeGenerator T ↔ p ∈ keysOf s.view ∧ T ≤ tickOf s.view p) ∧
    (s.mostRecentTick < T → s.timeGenerator T = []) := by
  obtain ⟨hnd, hknd, hkr, hrk, hsort⟩ := hg
  constructor
  · intro p
    unfold InMemoryView.timeGenerator
    constructor
    · intro hp
      have hmem : p ∈ s.view.recency := (List.takeWhile_sublist _).subset hp
      have hpred := List.mem_takeWhile_imp hp
      exact ⟨hrk p hmem, of_decide_eq_true hpred⟩
    · rintro ⟨hk, hT⟩
      exact mem_takeWhile_of_sorted hsort (hkr p hk) hT
  · intro hlt
    unfold InMemoryView.timeGenerator
    rcases hr : s.view.recency with _ | ⟨a, rest⟩
    · rfl
    · rw [List.takeWhile_cons]
      have ha : a ∈ s.view.recency := by
        rw [hr]
        exact List.mem_cons_self a rest
      have hna : ¬ (T ≤ tickOf s.view a) := by
        have := hub a ha
        omega
      simp [hna]

/-- Witness for C2 at the concrete state `sW`: the hypotheses hold, and the
generator membership equivalence is produced at a concrete path. -/
theorem C2_timeGenerator_exact_witness :
    goodView sW.view ∧ tickUBV sW.view sW.mostRecentTick ∧
      (["a", "x.txt"] ∈ sW.timeGenerator 3 ↔
        ["a", "x.txt"] ∈ keysOf sW.view ∧ 3 ≤ tickOf sW.view ["a", "x.txt"]) :=
  ⟨by decide, by decide,
   (C2_timeGenerator_exact sW 3 (by decide) (by decide)).1 ["a", "x.txt"]⟩

/-- C6: for a tracked file `p` and otimes `t1 ≤ t2` (on ticks), marking the
file changed twice leaves it at the head of the recency list, appearing
there exactly once — the second splice neither duplicates nor displaces the
entry. -/
theorem C6_markFileChanged_twice_head_once (v : ViewDatabase) (p : List String)
    (t1 t2 : WClock) (_ht : t1.ticks ≤ t2.ticks) (hnd : v.recency.Nodup)
    (hp : (findRec v.files p).isSome = true) :
    ((v.markFileChanged p t1).markFileChanged p t2).recency.head? = some p ∧
    List.count p ((v.markFileChanged p t1).markFileChanged p t2).recency = 1 := by
  have h1 : (v.markFileChanged p t1).recency = p :: v.recency.erase p :=
    recency_markFileChanged_of_mem hp
  have hp1 : (findRec (v.markFileChanged p t1).files p).isSome = true := by
    rw [findRec_markFileChanged, if_pos rfl]
    rcases hf : findRec v.files p with _ | r
    · rw [hf] at hp; simp at hp
    · simp
  have h2 : ((v.markFileChanged p t1).markFileChanged p t2).recency
      = p :: (v.markFileChanged p t1).recency.erase p :=
    recency_markFileChanged_of_mem hp1
  rw [h2, h1, List.erase_cons_head]
  refine ⟨rfl, ?_⟩
  rw [List.count_cons_self]
  have hnotin : p ∉ v.recency.erase p := fun hc => ((hnd.mem_erase_iff).1 hc).1 rfl
  rw [List.count_eq_zero.2 hnotin]

/-- Witness for C6 at the concrete view `vW`. -/
theorem C6_markFileChanged_twice_head_once_witness :
    vW.recency.Nodup ∧
    ((vW.markFileChanged ["a", "x.txt"] ⟨4, 40⟩).markFileChanged
        ["a", "x.txt"] ⟨5, 50⟩).recency.head? = some ["a", "x.txt"] ∧
    List.count ["a", "x.txt"]
        ((vW.markFileChanged ["a", "x.txt"] ⟨4, 40⟩).markFileChanged
          ["a", "x.txt"] ⟨5, 50⟩).recency = 1 :=
  ⟨by decide,
   (C6_markFileChanged_twice_head_once vW ["a", "x.txt"] ⟨4, 40⟩ ⟨5, 50⟩
     (by decide) (by decide) (by decide)).1,
   (C6_markFileChanged_twice_head_once vW ["a", "x.txt"] ⟨4, 40⟩ ⟨5, 50⟩
     (by decide) (by decide) (by decide)).2⟩

/-! Characterization of `markDirDeleted` as a pointwise tombstoning. -/

theorem findRec_foldl_del (l : List (List String)) (ot : WClock) :
    ∀ (v : ViewDatabase) (q : List String),
      findRec (l.foldl (fun acc p => acc.markFileDeleted p ot) v).files q =
        if q ∈ l then
          (findRec v.files q).map (fun r => { r with fileExists := false, otime := ot })
        else findRec v.files q := by
  induction l with
  | nil =>
    intro v q
    simp
  | cons p rest ih =>
    intro v q
    simp only [List.foldl_cons]
    rw [ih]
    by_cases hql : q ∈ rest
    · rw [if_pos hql, if_pos (List.mem_cons_of_mem _ hql)]
      rw [findRec_markFileDeleted]
      by_cases hqp : q = p
      · rw [if_pos hqp]
        rcases hf : findRec v.files q with _ | r <;> simp [hf]
      · rw [if_neg hqp]
    · by_cases hqp : q = p
      · subst hqp
        rw [if_neg hql, if_pos (List.mem_cons_self _ _), findRec_markFileDeleted,
          if_pos rfl]
      · rw [if_neg hql, if_neg (by simp [hqp, hql] : ¬ q ∈ p :: rest),
          findRec_markFileDeleted, if_neg hqp]

theorem keysOf_foldl_del (l : List (List String)) (ot : WClock) :
    ∀ v : ViewDatabase,
      keysOf (l.foldl (fun acc p => acc.markFileDeleted p ot) v) = keysOf v := by
  induction l with
  | nil => intro v; rfl
  | cons p rest ih =>
    intro v
    simp only [List.foldl_cons]
    rw [ih, keysOf_markFileDeleted]

theorem dirs_foldl_del (l : List (List String)) (ot : WClock) :
    ∀ v : ViewDatabase,
      (l.foldl (fun acc p => acc.markFileDeleted p ot) v).dirs = v.dirs := by
  induction l with
  | nil => intro v; rfl
  | cons p rest ih =>
    intro v
    simp only [List.foldl_cons]
    rw [ih, dirs_markFileDeleted]

theorem mem_affected_iff (v : ViewDatabase) (d : List String) (recursive : Bool)
    (q : List String) :
    q ∈ (v.files.filter (fun e => inScope d recursive e.1)).map Prod.fst ↔
      q ∈ keysOf v ∧ inScope d recursive q = true := by
  constructor
  · intro h
    obtain ⟨e, he, hq⟩ := List.mem_map.1 h
    obtain ⟨hef, hscope⟩ := List.mem_filter.1 he
    exact ⟨List.mem_map.2 ⟨e, hef, hq⟩, hq ▸ hscope⟩
  · rintro ⟨hk, hs⟩
    obtain ⟨e, he, hq⟩ := List.mem_map.1 hk
    refine List.mem_map.2 ⟨e, List.mem_filter.2 ⟨he, ?_⟩, hq⟩
    rw [show e.1 = q from hq]
    exact hs

theorem findRec_markDirDeleted (v : ViewDatabase) (d : List String) (ot : WClock)
    (recursive : Bool) (q : List String) :
    findRec (v.markDirDeleted d ot recursive).files q =
      if q ∈ keysOf v ∧ inScope d recursive q = true then
        (findRec v.files q).map (fun r => { r with fileExists := false, otime := ot })
      else findRec v.files q := by
  unfold ViewDatabase.markDirDeleted
  rw [findRec_foldl_del]
  by_cases hc : q ∈ keysOf v ∧ inScope d recursive q = true
  · rw [if_pos ((mem_affected_iff v d recursive q).2 hc), if_pos hc]
  · rw [if_neg (fun hm => hc ((mem_affected_iff v d recursive q).1 hm)), if_neg hc]

theorem isUnder_refl : ∀ d : List String, isUnder d d = true
  | [] => rfl
  | a :: as => by simp [isUnder, isUnder_refl as]

/-- C5: `markDirDeleted(dir, t, recursive)` tombstones every direct child of
`dir` with otime `t`; when `recursive` it also tombstones the contents of
all transitive child directories (every tracked file whose directory lies
under `dir`); and it removes no directory node and no tracked path — the
node identity and the child mapping stay addressable. -/
theorem C5_markDirDeleted_tombstones (v : ViewDatabase) (d : List String) (ot : WClock)
    (recursive : Bool) :
    (∀ p r, findRec v.files p = some r → p.dropLast = d →
      findRec (v.markDirDeleted d ot recursive).files p =
        some { r with fileExists := false, otime := ot }) ∧
    (recursive = true → ∀ p r, findRec v.files p = some r →
      isUnder d p.dropLast = true →
      findRec (v.markDirDeleted d ot recursive).files p =
        some { r with fileExists := false, otime := ot }) ∧
    (v.markDirDeleted d ot recursive).dirs = v.dirs ∧
    keysOf (v.markDirDeleted d ot recursive) = keysOf v := by
  refine ⟨?_, ?_, ?_, ?_⟩
  · intro p r hf hdl
    have hk : p ∈ keysOf v := (mem_keysOf_iff v p).2 (by simp [hf])
    have hs : inScope d recursive p = true := by
      unfold inScope
      cases recursive
      · simp [hdl]
      · simp only [if_true]
        rw [hdl]
        exact isUnder_refl d
    rw [findRec_markDirDeleted, if_pos ⟨hk, hs⟩, hf]
    rfl
  · intro hrec p r hf hu
    subst hrec
    have hk : p ∈ keysOf v := (mem_keysOf_iff v p).2 (by simp [hf])
    have hs : inScope d true p = true := by
      unfold inScope
      simpa using hu
    rw [findRec_markDirDeleted, if_pos ⟨hk, hs⟩, hf]
    rfl
  · unfold ViewDatabase.markDirDeleted
    exact dirs_foldl_del _ ot v
  · unfold ViewDatabase.markDirDeleted
    exact keysOf_foldl_del _ ot v

/-- Witness for C5 at the concrete view `vW`: deleting directory `a`
non-recursively tombstones its direct child `x.txt` with the given otime. -/
theorem C5_markDirDeleted_tombstones_witness :
    findRec vW.files ["a", "x.txt"] = some ⟨true, ⟨3, 30⟩, ⟨1, 10⟩⟩ ∧
    findRec (vW.markDirDeleted ["a"] ⟨6, 60⟩ false).files ["a", "x.txt"] =
      some ⟨false, ⟨6, 60⟩, ⟨1, 10⟩⟩ :=
  ⟨by decide,
   (C5_markDirDeleted_tombstones vW ["a"] ⟨6, 60⟩ false).1 ["a", "x.txt"]
     ⟨true, ⟨3, 30⟩, ⟨1, 10⟩⟩ (by decide) (by decide)⟩

/-- C7: draining a batch reports `IsDesynced::Yes` exactly when some entry
in the batch carries the desynced flag, and on `Yes` the caller aborts every
in-flight synchronization-cookie wait instead of letting it run to its
timeout. -/
theorem C7_desync_reported_and_cookies_aborted (fs : List (List String))
    (batch : List PendingChange) (v : ViewDatabase) (t : Nat) :
    ((processAllPending fs batch v t).2.2 = IsDesynced.Yes ↔
      ∃ pc ∈ batch, pc.desynced = true) ∧
    (∀ cookies : List Nat,
      (processAllPending fs batch v t).2.2 = IsDesynced.Yes →
        cookiesAfterDrain cookies (processAllPending fs batch v t).2.2 = []) := by
  constructor
  · show (if batch.any (fun pc => pc.desynced) then IsDesynced.Yes else IsDesynced.No)
      = IsDesynced.Yes ↔ _
    by_cases h : batch.any (fun pc => pc.desynced) = true
    · rw [if_pos h]
      exact ⟨fun _ => List.any_eq_true.1 h, fun _ => rfl⟩
    · rw [if_neg h]
      constructor
      · intro hc
        exact absurd hc (by simp)
      · intro hex
        exact absurd (List.any_eq_true.2 hex) h
  · intro cookies hy
    rw [hy]
    rfl

/-- Witness for C7: a single desync-flagged pending change makes the drain
report `Yes`, and the two in-flight cookie waits are aborted. -/
theorem C7_desync_reported_and_cookies_aborted_witness :
    (processAllPending [] [⟨["a"], false, true, true⟩] emptyView 1).2.2 = IsDesynced.Yes ∧
    cookiesAfterDrain [5, 9]
      (processAllPending [] [⟨["a"], false, true, true⟩] emptyView 1).2.2 = [] :=
  ⟨(C7_desync_reported_and_cookies_aborted [] [⟨["a"], false, true, true⟩] emptyView 1).1.2
     ⟨⟨["a"], false, true, true⟩, by decide, by decide⟩,
   (C7_desync_reported_and_cookies_aborted [] [⟨["a"], false, true, true⟩] emptyView 1).2
     [5, 9]
     ((C7_desync_reported_and_cookies_aborted [] [⟨["a"], false, true, true⟩] emptyView 1).1.2
       ⟨⟨["a"], false, true, true⟩, by decide, by decide⟩)⟩

/-- C9: the ViewDatabase owns the last known root-device identity — a stored
identity reads back unchanged — and a mismatch of the observed identity
triggers a full recrawl while a match stays incremental. -/
theorem C9_root_identity_mismatch_recrawls (v : ViewDatabase) (i observed : Nat) :
    ((v.setRootInode i).getRootInode = i) ∧
    (observed ≠ v.getRootInode →
      checkRootIdentity v observed = RepairAction.fullRecrawl) ∧
    (observed = v.getRootInode →
      checkRootIdentity v observed = RepairAction.incremental) := by
  refine ⟨rfl, ?_, ?_⟩
  · intro h
    unfold checkRootIdentity
    rw [if_neg h]
  · intro h
    unfold checkRootIdentity
    rw [if_pos h]

/-- Witness for C9 at the concrete view `vW` (stored root inode 7). -/
theorem C9_root_identity_mismatch_recrawls_witness :
    ((vW.setRootInode 3).getRootInode = 3) ∧
    checkRootIdentity vW 9 = RepairAction.fullRecrawl :=
  ⟨(C9_root_identity_mismatch_recrawls vW 3 9).1,
   (C9_root_identity_mismatch_recrawls vW 3 9).2.1 (by decide)⟩

/-! Tick counter: 32-bit wraparound analysis. -/

theorem tickAfter_eq (n : Nat) : tickAfter n 1 = (1 + n) % 4294967296 := by
  induction n with
  | zero => rfl
  | succ k ih =>
    show nextTick (tickAfter k 1) = _
    rw [ih]
    unfold nextTick
    omega

/-- C4 counterexample: the tick counter is 32 bits wide, so after 2^32
mutator passes the value observed at pass 0 recurs — tick values are reused
within a long enough root lifetime, refuting unconditional "never reused". -/
theorem C4_counterexample_tick_wraps :
    tickAfter 0 1 = tickAfter 4294967296 1 ∧ (0 : Nat) < 4294967296 := by
  constructor
  · rw [tickAfter_eq 4294967296]
    decide
  · decide

/-- C4 (amended): before 32-bit wraparound — while fewer than 2^32 − 1 tick
advances have occurred — observed tick values strictly increase (hence are
never reused), and every mutation stamps the affected entity with the tick
at which it occurred. -/
theorem C4_tick_monotonic_before_wrap :
    (∀ m n : Nat, m < n → n < 4294967295 → tickAfter m 1 < tickAfter n 1) ∧
    (∀ (v : ViewDatabase) (p : List String) (t : WClock),
      (findRec v.files p).isSome = true →
        tickOf (v.markFileChanged p t) p = t.ticks) := by
  constructor
  · intro m n hmn hn
    rw [tickAfter_eq, tickAfter_eq]
    have hm : 1 + m < 4294967296 := by omega
    have hn' : 1 + n < 4294967296 := by omega
    rw [Nat.mod_eq_of_lt hm, Nat.mod_eq_of_lt hn']
    omega
  · intro v p t h
    exact tickOf_markFileChanged_self t h

/-- Witness for the amended C4: one concrete tick advance strictly grows the
counter, and a concrete `markFileChanged` stamps the file with its tick. -/
theorem C4_tick_monotonic_before_wrap_witness :
    tickAfter 0 1 < tickAfter 1 1 ∧
    tickOf (vW.markFileChanged ["a", "x.txt"] ⟨9, 90⟩) ["a", "x.txt"] = 9 :=
  ⟨C4_tick_monotonic_before_wrap.1 0 1 (by decide) (by decide),
   C4_tick_monotonic_before_wrap.2 vW ["a", "x.txt"] ⟨9, 90⟩ (by decide)⟩

/-- C8: the age-out sweep never removes an entity whose otime timestamp is
at least `now - minAge`; afterwards no tombstoned entity older than the
minimum age remains reachable from the tree index or from the recency list;
and the age-out tick and timestamp are recorded. -/
theorem C8_ageOut_bounds (s : InMemoryView) (now minAge : Nat)
    (hknd : (keysOf s.view).Nodup) :
    (∀ p r, findRec s.view.files p = some r → now - minAge ≤ r.otime.timestamp →
      findRec (s.ageOut now minAge).view.files p = some r) ∧
    (∀ p r, findRec (s.ageOut now minAge).view.files p = some r →
      r.fileExists = false → now - minAge ≤ r.otime.timestamp) ∧
    (∀ p, p ∈ (s.ageOut now minAge).view.recency →
      ∀ r, findRec s.view.files p = some r → r.fileExists = false →
        now - minAge ≤ r.otime.timestamp) ∧
    ((s.ageOut now minAge).lastAgeOutTick = s.mostRecentTick ∧
     (s.ageOut now minAge).lastAgeOutTimestamp = now) := by
  have hview : (s.ageOut now minAge).view = s.view.ageOutFiles now minAge := rfl
  refine ⟨?_, ?_, ?_, rfl, rfl⟩
  · intro p r hf hts
    rw [hview, findRec_ageOutFiles now minAge p hknd, hf]
    have hk : keepRec now minAge r = true := by
      unfold keepRec
      simp [hts]
    simp [hk]
  · intro p r hf hex
    rw [hview, findRec_ageOutFiles now minAge p hknd] at hf
    rcases hs : findRec s.view.files p with _ | r'
    · rw [hs] at hf; simp at hf
    · rw [hs] at hf
      by_cases hk : keepRec now minAge r' = true
      · simp only [hk, if_true] at hf
        have hrr : r' = r := by simpa using hf
        subst hrr
        unfold keepRec at hk
        rw [hex] at hk
        simpa using hk
      · simp [hk] at hf
  · intro p hp r hf hex
    rw [hview, recency_ageOutFiles] at hp
    obtain ⟨hpr, hp2⟩ := List.mem_filter.1 hp
    rw [hf] at hp2
    have hk : keepRec now minAge r = true := by simpa using hp2
    unfold keepRec at hk
    rw [hex] at hk
    simpa using hk

/-- Witness for C8 at the concrete state `sW`: the tombstoned file `y.txt`
(otime timestamp 20) is younger than the minimum age for now = 25,
minAge = 10, so the sweep keeps it. -/
theorem C8_ageOut_bounds_witness :
    (keysOf sW.view).Nodup ∧
    findRec (sW.ageOut 25 10).view.files ["a", "y.txt"] =
      some ⟨false, ⟨2, 20⟩, ⟨1, 10⟩⟩ :=
  ⟨by decide,
   (C8_ageOut_bounds sW 25 10 (by decide)).1 ["a", "y.txt"]
     ⟨false, ⟨2, 20⟩, ⟨1, 10⟩⟩ (by decide) (by decide)⟩

/-! Order independence of the pending-change pipeline (C3). -/

theorem existsInView_eq_false_of_none {v : ViewDatabase} {q : List String}
    (h : findRec v.files q = none) : existsInView v q = false := by
  unfold existsInView
  rw [h]

theorem existsInView_markFileChanged (v : ViewDatabase) (p : List String) (ot : WClock)
    (q : List String) : existsInView (v.markFileChanged p ot) q = existsInView v q := by
  unfold existsInView
  rw [findRec_markFileChanged]
  by_cases hq : q = p
  · subst hq
    rcases hf : findRec v.files q with _ | r <;> simp [hf]
  · simp [hq]

theorem existsInView_setFileExists_self (v : ViewDatabase) (p : List String) (b : Bool)
    (h : (findRec v.files p).isSome = true) :
    existsInView (v.setFileExists p b) p = b := by
  unfold existsInView
  rw [findRec_setFileExists, if_pos rfl]
  rcases hf : findRec v.files p with _ | r
  · rw [hf] at h; simp at h
  · simp

theorem existsInView_setFileExists_ne (v : ViewDatabase) (p : List String) (b : Bool)
    {q : List String} (hq : q ≠ p) :
    existsInView (v.setFileExists p b) q = existsInView v q := by
  unfold existsInView
  rw [findRec_setFileExists, if_neg hq]

theorem existsInView_markFileDeleted (v : ViewDatabase) (p : List String) (ot : WClock)
    (q : List String) :
    existsInView (v.markFileDeleted p ot) q =
      if q = p then false else existsInView v q := by
  unfold existsInView
  rw [findRec_markFileDeleted]
  by_cases hq : q = p
  · subst hq
    rcases hf : findRec v.files q with _ | r <;> simp [hf]
  · simp [hq]

theorem existsInView_getOrCreateChildFile_ne (v : ViewDatabase) (p : List String)
    (ct : WClock) {q : List String} (hq : q ≠ p) :
    existsInView (v.getOrCreateChildFile p ct) q = existsInView v q := by
  unfold existsInView
  rw [findRec_getOrCreateChildFile, if_neg hq]

theorem existsInView_processPath (fs : List (List String)) (v : ViewDatabase)
    (p : List String) (t : Nat) (q : List String) :
    existsInView (processPath fs v p t) q =
      if q = p then decide (p ∈ fs) else existsInView v q := by
  unfold processPath
  by_cases hfs : p ∈ fs
  · rw [if_pos hfs]
    by_cases hq : q = p
    · subst hq
      rw [existsInView_markFileChanged]
      have hsome : (findRec (v.getOrCreateChildFile q ⟨t, t⟩).files q).isSome = true := by
        rw [findRec_getOrCreateChildFile, if_pos rfl]
        rfl
      rw [existsInView_setFileExists_self _ _ _ hsome]
      simp [hfs]
    · rw [existsInView_markFileChanged, existsInView_setFileExists_ne _ _ _ hq,
        existsInView_getOrCreateChildFile_ne _ _ _ hq, if_neg hq]
  · rw [if_neg hfs]
    by_cases hq : q = p
    · subst hq
      by_cases hp : (findRec v.files q).isSome = true
      · rw [if_pos hp, existsInView_markFileDeleted, if_pos rfl, if_pos rfl]
        simp [hfs]
      · rw [if_neg hp, if_pos rfl]
        have hnone : findRec v.files q = none := by
          rcases hf : findRec v.files q with _ | r
          · rfl
          · rw [hf] at hp; simp at hp
        rw [existsInView_eq_false_of_none hnone]
        simp [hfs]
    · by_cases hp : (findRec v.files p).isSome = true
      · rw [if_pos hp, existsInView_markFileDeleted, if_neg hq, if_neg hq]
      · rw [if_neg hp, if_neg hq]

theorem existsInView_foldl_processPath (fs : List (List String))
    (batch : List PendingChange) :
    ∀ (v : ViewDatabase) (t : Nat) (q : List String),
      existsInView
          (batch.foldl (fun st pc => (processPath fs st.1 pc.path st.2, st.2 + 1)) (v, t)).1
          q =
        if q ∈ batch.map PendingChange.path then decide (q ∈ fs)
        else existsInView v q := by
  induction batch with
  | nil =>
    intro v t q
    simp
  | cons pc rest ih =>
    intro v t q
    simp only [List.foldl_cons, List.map_cons]
    rw [ih]
    by_cases hqr : q ∈ rest.map PendingChange.path
    · rw [if_pos hqr, if_pos (List.mem_cons_of_mem _ hqr)]
    · rw [if_neg hqr]
      by_cases hqp : q = pc.path
      · rw [existsInView_processPath, if_pos hqp,
          if_pos (hqp ▸ List.mem_cons_self _ _)]
        rw [hqp]
      · rw [existsInView_processPath, if_neg hqp,
          if_neg (by simp [hqp, hqr] : ¬ q ∈ pc.path :: rest.map PendingChange.path)]

theorem foldl_applyFsOp_subset (ops : List FsOp) :
    ∀ (init : List (List String)) (q : List String),
      q ∈ ops.foldl applyFsOp init → q ∈ init ∨ q ∈ ops.map FsOp.path := by
  induction ops with
  | nil =>
    intro init q h
    exact Or.inl h
  | cons op rest ih =>
    intro init q h
    rcases ih (applyFsOp init op) q h with h | h
    · cases op with
      | create p =>
        simp only [applyFsOp] at h
        by_cases hp : p ∈ init
        · rw [if_pos hp] at h
          exact Or.inl h
        · rw [if_neg hp] at h
          rcases List.mem_cons.1 h with h | h
          · subst h
            exact Or.inr (List.mem_map.2 ⟨FsOp.create q, List.mem_cons_self _ _, rfl⟩)
          · exact Or.inl h
      | modify p =>
        simp only [applyFsOp] at h
        by_cases hp : p ∈ init
        · rw [if_pos hp] at h
          exact Or.inl h
        · rw [if_neg hp] at h
          rcases List.mem_cons.1 h with h | h
          · subst h
            exact Or.inr (List.mem_map.2 ⟨FsOp.modify q, List.mem_cons_self _ _, rfl⟩)
          · exact Or.inl h
      | delete p =>
        simp only [applyFsOp] at h
        exact Or.inl (List.mem_filter.1 h).1
    · obtain ⟨o, ho, hq⟩ := List.mem_map.1 h
      exact Or.inr (List.mem_map.2 ⟨o, List.mem_cons_of_mem _ ho, hq⟩)

/-- C3: applying any permutation of a sequence of create/modify/delete
pending changes to the empty view through the pipeline yields a tree whose
set of existing files is exactly that of the reference model which applies
the same operations directly (in their original order) — tree equality up
to the final otime ordering, tombstoned entries denoting non-existence. -/
theorem C3_pipeline_order_independent (ops perm : List FsOp) (hperm : perm.Perm ops)
    (p : List String) :
    (existsInView (processAllPending (refModel ops) (perm.map pendingOf) emptyView 1).1 p
        = true)
      ↔ p ∈ refModel ops := by
  show existsInView
      ((perm.map pendingOf).foldl
        (fun st pc => (processPath (refModel ops) st.1 pc.path st.2, st.2 + 1))
        (emptyView, 1)).1 p = true ↔ _
  rw [existsInView_foldl_processPath]
  have hmap : (perm.map pendingOf).map PendingChange.path = perm.map FsOp.path := by
    rw [List.map_map]
    rfl
  rw [hmap]
  by_cases hp : p ∈ perm.map FsOp.path
  · rw [if_pos hp]
    simp
  · rw [if_neg hp]
    have hnotref : p ∉ refModel ops := by
      intro hr
      rcases foldl_applyFsOp_subset ops [] p hr with h | h
      · cases h
      · exact hp ((hperm.map FsOp.path).mem_iff.2 h)
    have hempty : existsInView emptyView p = false :=
      existsInView_eq_false_of_none rfl
    rw [hempty]
    simp [hnotref]

/-- Concrete operation sequence and a permutation of it, for the C3
witness. -/
def opsW : List FsOp :=
  [FsOp.create ["a", "x.txt"], FsOp.create ["b"], FsOp.delete ["b"]]

/-- The same operations in a different order. -/
def permW : List FsOp :=
  [FsOp.delete ["b"], FsOp.create ["b"], FsOp.create ["a", "x.txt"]]

/-- Witness for C3: the permuted pipeline and the reference model agree on
the deleted-then-recreated path `b`. -/
theorem C3_pipeline_order_independent_witness :
    permW.Perm opsW ∧
    (existsInView (processAllPending (refModel opsW) (permW.map pendingOf) emptyView 1).1
        ["b"] = true
      ↔ ["b"] ∈ refModel opsW) :=
  ⟨by decide, C3_pipeline_order_independent opsW permW (by decide) ["b"]⟩
